import Mathlib

/-!
Verification of the AI Health Bill Auditor specification against the code.

The development shallowly embeds the program parts the claims are about:

* frontend password validation (src/frontend/src/utils/validation.ts);
* the DocumentViewer zoom / page / field-correction state machine
  (src/frontend/src/components/DocumentViewer/DocumentViewer.tsx);
* the audit-results page data shape and region rendering
  (src/frontend/src/pages/AuditResultsPage.tsx);
* the Bill Audit Engine.  The engine itself (catalog, matcher, detectors,
  aggregator) is not present in the repository snapshot under src/ — only
  its frontend callers are — so it is modelled from the specification
  (spec.md sections 3, 4, 7, 8), as flagged on each such definition.

Numbers that are IEEE doubles in the source are modelled as rationals;
currency amounts and confidences are exact rationals.
-/

/-! ## Password validation (src/frontend/src/utils/validation.ts) -/

/-- Result type of getPasswordStrength: the three string literals of the
TypeScript return type. -/
inductive Strength
| weak
| medium
| strong
deriving DecidableEq, Repr

/-- Embeds the regex test /[a-z]/ (ASCII lowercase presence). -/
def hasLowerChar (p : String) : Bool := p.data.any Char.isLower

/-- Embeds the regex test /[A-Z]/ (ASCII uppercase presence). -/
def hasUpperChar (p : String) : Bool := p.data.any Char.isUpper

/-- Embeds the regex test /[0-9]/ (digit presence). -/
def hasDigitChar (p : String) : Bool := p.data.any Char.isDigit

/-- Embeds the regex test /[^a-zA-Z0-9]/ (non-alphanumeric presence). -/
def hasSpecialChar (p : String) : Bool := p.data.any (fun c => !c.isAlphanum)

/-- isValidPassword from validation.ts: password.length >= 8. -/
def isValidPassword (p : String) : Bool := decide (8 ≤ p.length)

/-- Character-class count accumulated in the local variable strength of
getPasswordStrength. -/
def strengthCount (p : String) : Nat :=
  (if hasLowerChar p then 1 else 0) + (if hasUpperChar p then 1 else 0)
    + (if hasDigitChar p then 1 else 0) + (if hasSpecialChar p then 1 else 0)

/-- getPasswordStrength from validation.ts: length < 8 is weak; otherwise
count the four character-class signals and classify. -/
def getPasswordStrength (p : String) : Strength :=
  if p.length < 8 then Strength.weak
  else if 4 ≤ strengthCount p ∧ 12 ≤ p.length then Strength.strong
  else if 3 ≤ strengthCount p then Strength.medium
  else Strength.weak

/-! ## DocumentViewer zoom and page state
(src/frontend/src/components/DocumentViewer/DocumentViewer.tsx) -/

/-- Zoom operations exposed by the toolbar: zoomIn and zoomOut. -/
inductive ZoomOp
| zin
| zout
deriving DecidableEq, Repr

/-- zoomIn from DocumentViewer.tsx line 236: setScale(s => Math.min(3, s + 0.25)). -/
def zoomIn (s : ℚ) : ℚ := min 3 (s + 1/4)

/-- zoomOut from DocumentViewer.tsx line 237: setScale(s => Math.max(0.5, s - 0.25)). -/
def zoomOut (s : ℚ) : ℚ := max (1/2) (s - 1/4)

/-- One zoom step on the scale state. -/
def applyZoom (s : ℚ) : ZoomOp → ℚ
  | ZoomOp.zin => zoomIn s
  | ZoomOp.zout => zoomOut s

/-- Scale after a sequence of zoom operations, starting from useState(1.5). -/
def runZoom (ops : List ZoomOp) : ℚ := ops.foldl applyZoom (3/2)

/-- Page navigation operations: goToPrevPage and goToNextPage. -/
inductive PageOp
| prev
| next
deriving DecidableEq, Repr

/-- goToPrevPage from DocumentViewer.tsx line 221: setCurrentPage(p => Math.max(1, p - 1)). -/
def goToPrevPage (p : ℕ) : ℕ := max 1 (p - 1)

/-- goToNextPage from DocumentViewer.tsx line 229:
setCurrentPage(p => Math.min(pdfDoc.numPages, p + 1)). -/
def goToNextPage (numPages p : ℕ) : ℕ := min numPages (p + 1)

/-- One page-navigation step on the currentPage state. -/
def applyPage (numPages p : ℕ) : PageOp → ℕ
  | PageOp.prev => goToPrevPage p
  | PageOp.next => goToNextPage numPages p

/-- Current page after a sequence of navigation operations, starting from
useState(1). -/
def runPages (numPages : ℕ) (ops : List PageOp) : ℕ :=
  ops.foldl (applyPage numPages) 1

/-! Helper lemmas for the zoom / page invariants. -/

theorem applyZoom_bounds {s : ℚ} (h1 : 1/2 ≤ s) (h2 : s ≤ 3) (op : ZoomOp) :
    1/2 ≤ applyZoom s op ∧ applyZoom s op ≤ 3 := by
  cases op with
  | zin =>
    refine ⟨le_min (by norm_num) (by linarith), min_le_left _ _⟩
  | zout =>
    exact ⟨le_max_left _ _, max_le (by norm_num) (by linarith)⟩

theorem foldl_applyZoom_bounds (ops : List ZoomOp) :
    ∀ s : ℚ, 1/2 ≤ s → s ≤ 3 →
      1/2 ≤ ops.foldl applyZoom s ∧ ops.foldl applyZoom s ≤ 3 := by
  induction ops with
  | nil => intro s h1 h2; exact ⟨h1, h2⟩
  | cons op rest ih =>
    intro s h1 h2
    have h := applyZoom_bounds h1 h2 op
    exact ih _ h.1 h.2

theorem applyPage_bounds {n p : ℕ} (hn : 1 ≤ n) (h1 : 1 ≤ p) (h2 : p ≤ n)
    (op : PageOp) : 1 ≤ applyPage n p op ∧ applyPage n p op ≤ n := by
  cases op with
  | prev =>
    refine ⟨le_max_left 1 _, max_le hn ?_⟩
    omega
  | next =>
    refine ⟨le_min hn (by omega), min_le_left _ _⟩

theorem foldl_applyPage_bounds {n : ℕ} (hn : 1 ≤ n) (ops : List PageOp) :
    ∀ p : ℕ, 1 ≤ p → p ≤ n →
      1 ≤ ops.foldl (applyPage n) p ∧ ops.foldl (applyPage n) p ≤ n := by
  induction ops with
  | nil => intro p h1 h2; exact ⟨h1, h2⟩
  | cons op rest ih =>
    intro p h1 h2
    have h := applyPage_bounds hn h1 h2 op
    exact ih _ h.1 h.2

/-! ## Association-list model of a JavaScript Map

setPair models Map.set (update in place, else append, so insertion order is
kept), erasePair models Map.delete, lookupPair models Map.get. -/

/-- Map.set: replace the first binding of the key, or append a new one. -/
def setPair {α β : Type} [DecidableEq α] : List (α × β) → α → β → List (α × β)
  | [], k, v => [(k, v)]
  | (k1, v1) :: t, k, v =>
    if k1 = k then (k, v) :: t else (k1, v1) :: setPair t k v

/-- Map.delete: remove the binding of the key. -/
def erasePair {α β : Type} [DecidableEq α] : List (α × β) → α → List (α × β)
  | [], _ => []
  | (k1, v1) :: t, k =>
    if k1 = k then erasePair t k else (k1, v1) :: erasePair t k

/-- Map.get: the first binding of the key, if any. -/
def lookupPair {α β : Type} [DecidableEq α] : List (α × β) → α → Option β
  | [], _ => none
  | (k1, v1) :: t, k => if k1 = k then some v1 else lookupPair t k

theorem lookupPair_setPair {α β : Type} [DecidableEq α]
    (m : List (α × β)) (k k2 : α) (v : β) :
    lookupPair (setPair m k v) k2 = if k = k2 then some v else lookupPair m k2 := by
  induction m with
  | nil =>
    by_cases h : k = k2 <;> simp [setPair, lookupPair, h]
  | cons e t ih =>
    obtain ⟨k1, v1⟩ := e
    by_cases h1 : k1 = k
    · subst h1
      by_cases h : k1 = k2 <;> simp [setPair, lookupPair, h]
    · by_cases h : k1 = k2
      · subst h
        have hk : ¬k = k1 := fun hc => h1 hc.symm
        simp [setPair, lookupPair, h1, hk]
      · simp [setPair, lookupPair, h1, h, ih]

theorem lookupPair_erasePair {α β : Type} [DecidableEq α]
    (m : List (α × β)) (k k2 : α) :
    lookupPair (erasePair m k) k2 = if k = k2 then none else lookupPair m k2 := by
  induction m with
  | nil => by_cases h : k = k2 <;> simp [erasePair, lookupPair, h]
  | cons e t ih =>
    obtain ⟨k1, v1⟩ := e
    by_cases h1 : k1 = k
    · subst h1
      by_cases h : k1 = k2
      · subst h
        simpa [erasePair, lookupPair] using ih
      · simp [erasePair, lookupPair, h, ih]
    · by_cases h2 : k1 = k2
      · subst h2
        have hk : ¬k = k1 := fun hc => h1 hc.symm
        simp [erasePair, lookupPair, h1, hk]
      · simp [erasePair, lookupPair, h1, h2, ih]

theorem mem_setPair {α β : Type} [DecidableEq α]
    {m : List (α × β)} {k : α} {v : β} {x : α × β}
    (hx : x ∈ setPair m k v) : x = (k, v) ∨ x ∈ m := by
  induction m with
  | nil => simpa [setPair] using hx
  | cons e t ih =>
    obtain ⟨k1, v1⟩ := e
    by_cases h1 : k1 = k
    · simp only [setPair, if_pos h1, List.mem_cons] at hx
      rcases hx with hx | hx
      · exact Or.inl hx
      · exact Or.inr (List.mem_cons_of_mem _ hx)
    · simp only [setPair, if_neg h1, List.mem_cons] at hx
      rcases hx with hx | hx
      · exact Or.inr (List.mem_cons.mpr (Or.inl hx))
      · rcases ih hx with h | h
        · exact Or.inl h
        · exact Or.inr (List.mem_cons_of_mem _ h)

theorem lookupPair_mem {α β : Type} [DecidableEq α]
    {m : List (α × β)} {k : α} {v : β}
    (h : lookupPair m k = some v) : (k, v) ∈ m := by
  induction m with
  | nil => simp [lookupPair] at h
  | cons e t ih =>
    obtain ⟨k1, v1⟩ := e
    by_cases h1 : k1 = k
    · subst h1
      simp only [lookupPair, eq_self_iff_true, ite_true, Option.some.injEq] at h
      cases h
      exact List.mem_cons_self _ _
    · simp only [lookupPair, if_neg h1] at h
      exact List.mem_cons_of_mem _ (ih h)

/-- Keys of an association list. -/
def pairKeys {α β : Type} (m : List (α × β)) : List α := m.map Prod.fst

theorem mem_pairKeys_erasePair {α β : Type} [DecidableEq α]
    {m : List (α × β)} {k a : α}
    (h : a ∈ pairKeys (erasePair m k)) : a ∈ pairKeys m := by
  induction m with
  | nil => simp [erasePair, pairKeys] at h
  | cons e t ih =>
    obtain ⟨k1, v1⟩ := e
    by_cases h1 : k1 = k
    · simp only [erasePair, if_pos h1] at h
      exact List.mem_cons_of_mem _ (ih h)
    · simp only [erasePair, if_neg h1, pairKeys, List.map_cons, List.mem_cons] at h ⊢
      rcases h with h | h
      · exact Or.inl h
      · exact Or.inr (ih h)

theorem pairKeys_nodup_setPair {α β : Type} [DecidableEq α]
    {m : List (α × β)} (h : (pairKeys m).Nodup) (k : α) (v : β) :
    (pairKeys (setPair m k v)).Nodup := by
  induction m with
  | nil => simp [setPair, pairKeys]
  | cons e t ih =>
    obtain ⟨k1, v1⟩ := e
    simp only [pairKeys, List.map_cons, List.nodup_cons] at h
    by_cases h1 : k1 = k
    · subst h1
      simpa [setPair, pairKeys, List.nodup_cons] using h
    · simp only [setPair, if_neg h1, pairKeys, List.map_cons, List.nodup_cons]
      refine ⟨?_, ih h.2⟩
      intro hmem
      rcases List.mem_map.mp hmem with ⟨x, hx, hfst⟩
      rcases mem_setPair hx with rfl | hxt
      · exact h1 hfst.symm
      · exact h.1 (List.mem_map.mpr ⟨x, hxt, hfst⟩)

theorem pairKeys_nodup_erasePair {α β : Type} [DecidableEq α]
    {m : List (α × β)} (h : (pairKeys m).Nodup) (k : α) :
    (pairKeys (erasePair m k)).Nodup := by
  induction m with
  | nil => simp [erasePair, pairKeys]
  | cons e t ih =>
    obtain ⟨k1, v1⟩ := e
    simp only [pairKeys, List.map_cons, List.nodup_cons] at h
    by_cases h1 : k1 = k
    · simp only [erasePair, if_pos h1]
      exact ih h.2
    · simp only [erasePair, if_neg h1, pairKeys, List.map_cons, List.nodup_cons]
      exact ⟨fun hmem => h.1 (mem_pairKeys_erasePair hmem), ih h.2⟩

theorem lookupPair_of_mem_nodup {α β : Type} [DecidableEq α]
    {m : List (α × β)} {x : α × β}
    (hx : x ∈ m) (h : (pairKeys m).Nodup) : lookupPair m x.1 = some x.2 := by
  induction m with
  | nil => simp at hx
  | cons e t ih =>
    obtain ⟨k1, v1⟩ := e
    simp only [pairKeys, List.map_cons, List.nodup_cons] at h
    rcases List.mem_cons.mp hx with rfl | hxt
    · simp [lookupPair]
    · have hne : ¬k1 = x.1 := by
        intro hc
        exact h.1 (List.mem_map.mpr ⟨x, hxt, hc.symm⟩)
      simp only [lookupPair, if_neg hne]
      exact ih hxt h.2

/-! ## DocumentViewer field corrections
(src/frontend/src/components/DocumentViewer/DocumentViewer.tsx) -/

/-- Bounding box coordinates (normalized 0-1), from DocumentViewer.tsx. -/
structure BoundingBox where
  x : ℚ
  y : ℚ
  width : ℚ
  height : ℚ
deriving DecidableEq, Repr

/-- Extraction source union type of ParsedField. -/
inductive FieldSource
| regex
| table
| fuzzy
| ocr
| notFound
deriving DecidableEq, Repr

/-- Parsed field from document extraction, from DocumentViewer.tsx. -/
structure ParsedField where
  id : String
  fieldName : String
  value : Option String
  confidence : ℚ
  source : FieldSource
  boundingBox : Option BoundingBox
  pageNumber : Option ℕ
deriving DecidableEq, Repr

/-- Field correction submitted by the user, from DocumentViewer.tsx. -/
structure FieldCorrection where
  fieldId : String
  originalValue : Option String
  correctedValue : String
deriving DecidableEq, Repr

/-- User interactions with the editedFields map: handleFieldChange sets a
binding, handleResetField deletes it. -/
inductive FieldEvent
| change (fieldId value : String)
| reset (fieldId : String)
deriving DecidableEq, Repr

/-- handleFieldChange (set) and handleResetField (delete) applied to the
editedFields map state. -/
def applyFieldEvent (m : List (String × String)) : FieldEvent → List (String × String)
  | FieldEvent.change k v => setPair m k v
  | FieldEvent.reset k => erasePair m k

/-- The editedFields map after a sequence of user interactions, starting from
the initial empty Map. -/
def runFieldEvents (evs : List FieldEvent) : List (String × String) :=
  evs.foldl applyFieldEvent []

/-- The value the user last left in a field: the value of the last change
event for the field not followed by a reset of that field. -/
def lastEditValue (evs : List FieldEvent) (k : String) : Option String :=
  evs.foldl
    (fun acc e =>
      match e with
      | FieldEvent.change k2 v => if k2 = k then some v else acc
      | FieldEvent.reset k2 => if k2 = k then none else acc)
    none

/-- handleSubmitCorrections from DocumentViewer.tsx lines 188-215: bail out
when nothing was edited; otherwise, for each edited binding whose fieldId is
found in document.parsedFields, push a correction carrying the original
extracted value. -/
def handleSubmitCorrections (edited : List (String × String))
    (fields : List ParsedField) : Option (List FieldCorrection) :=
  if edited.isEmpty then none
  else
    some (edited.filterMap (fun kv =>
      (fields.find? (fun f => decide (f.id = kv.1))).map
        (fun f => ⟨kv.1, f.value, kv.2⟩)))

theorem lookupPair_runFieldEvents (evs : List FieldEvent) (k : String) :
    lookupPair (runFieldEvents evs) k = lastEditValue evs k := by
  suffices h : ∀ m : List (String × String),
      lookupPair (evs.foldl applyFieldEvent m) k =
        evs.foldl
          (fun acc e =>
            match e with
            | FieldEvent.change k2 v => if k2 = k then some v else acc
            | FieldEvent.reset k2 => if k2 = k then none else acc)
          (lookupPair m k) by
    have := h []
    simpa [runFieldEvents, lastEditValue, lookupPair] using this
  induction evs with
  | nil => intro m; rfl
  | cons e rest ih =>
    intro m
    cases e with
    | change k2 v =>
      simp only [List.foldl_cons, applyFieldEvent]
      rw [ih]
      congr 1
      rw [lookupPair_setPair]
    | reset k2 =>
      simp only [List.foldl_cons, applyFieldEvent]
      rw [ih]
      congr 1
      rw [lookupPair_erasePair]

theorem runFieldEvents_keys_nodup (evs : List FieldEvent) :
    (pairKeys (runFieldEvents evs)).Nodup := by
  suffices h : ∀ m : List (String × String), (pairKeys m).Nodup →
      (pairKeys (evs.foldl applyFieldEvent m)).Nodup by
    exact h [] (by simp [pairKeys])
  induction evs with
  | nil => intro m hm; exact hm
  | cons e rest ih =>
    intro m hm
    cases e with
    | change k2 v => exact ih _ (pairKeys_nodup_setPair hm k2 v)
    | reset k2 => exact ih _ (pairKeys_nodup_erasePair hm k2)

/-! ## Claim theorems for the frontend utilities -/

/-- C8: every FieldCorrection submitted by handleSubmitCorrections refers to
a field of document.parsedFields, carries that field's extracted value as
originalValue, and carries as correctedValue the value the user last typed
into the field (so never-edited or reset fields are not submitted); when no
field was edited, nothing is submitted. -/
theorem submitCorrections_sound (evs : List FieldEvent) (fields : List ParsedField) :
    (runFieldEvents evs = [] →
      handleSubmitCorrections (runFieldEvents evs) fields = none) ∧
    (∀ cs, handleSubmitCorrections (runFieldEvents evs) fields = some cs →
      ∀ c ∈ cs,
        (∃ f ∈ fields, f.id = c.fieldId ∧ f.value = c.originalValue) ∧
        lastEditValue evs c.fieldId = some c.correctedValue) := by
  constructor
  · intro h
    simp [handleSubmitCorrections, h]
  · intro cs hcs c hc
    unfold handleSubmitCorrections at hcs
    split at hcs
    · exact absurd hcs (by simp)
    · have hmem : c ∈ (runFieldEvents evs).filterMap (fun kv =>
          (fields.find? (fun f => decide (f.id = kv.1))).map
            (fun f => (⟨kv.1, f.value, kv.2⟩ : FieldCorrection))) := by
        cases hcs
        exact hc
      rcases List.mem_filterMap.mp hmem with ⟨kv, hkv, hsome⟩
      rcases Option.map_eq_some'.mp hsome with ⟨f, hfind, hcor⟩
      have hf : f ∈ fields := List.mem_of_find?_eq_some hfind
      have hfid : f.id = kv.1 := by
        have := List.find?_some hfind
        simpa using this
      constructor
      · refine ⟨f, hf, ?_, ?_⟩
        · rw [hfid, ← hcor]
        · rw [← hcor]
      · have hlook : lookupPair (runFieldEvents evs) kv.1 = some kv.2 :=
          lookupPair_of_mem_nodup hkv (runFieldEvents_keys_nodup evs)
        rw [← hcor]
        simpa [← lookupPair_runFieldEvents] using hlook

/-- Concrete parsed field used by the C8 witness. -/
def sampleField : ParsedField :=
  { id := "f1", fieldName := "total_amount", value := some "120",
    confidence := 9/10, source := FieldSource.regex, boundingBox := none,
    pageNumber := some 1 }

/-- C8 witness: the soundness property evaluated on one concrete edit of the
field f1. -/
theorem submitCorrections_sound_witness :
    handleSubmitCorrections (runFieldEvents [FieldEvent.change "f1" "150"])
        [sampleField] =
      some [⟨"f1", some "120", "150"⟩] ∧
    ((∃ f ∈ [sampleField],
        f.id = (⟨"f1", some "120", "150"⟩ : FieldCorrection).fieldId ∧
        f.value = (⟨"f1", some "120", "150"⟩ : FieldCorrection).originalValue) ∧
      lastEditValue [FieldEvent.change "f1" "150"]
          (⟨"f1", some "120", "150"⟩ : FieldCorrection).fieldId =
        some (⟨"f1", some "120", "150"⟩ : FieldCorrection).correctedValue) :=
  ⟨by decide,
   (submitCorrections_sound [FieldEvent.change "f1" "150"] [sampleField]).2
     [⟨"f1", some "120", "150"⟩] (by decide) ⟨"f1", some "120", "150"⟩ (by decide)⟩

/-- C10: getPasswordStrength returns weak whenever the password is shorter
than 8 characters; it returns strong only if the password has at least 12
characters and contains a lowercase letter, an uppercase letter, a digit and
a non-alphanumeric character; and isValidPassword is false whenever the
short-length branch of getPasswordStrength applies. -/
theorem passwordStrength_policy (p : String) :
    (p.length < 8 → getPasswordStrength p = Strength.weak) ∧
    (getPasswordStrength p = Strength.strong →
      12 ≤ p.length ∧ hasLowerChar p = true ∧ hasUpperChar p = true ∧
        hasDigitChar p = true ∧ hasSpecialChar p = true) ∧
    (p.length < 8 → isValidPassword p = false) := by
  refine ⟨?_, ?_, ?_⟩
  · intro h
    simp [getPasswordStrength, h]
  · intro h
    unfold getPasswordStrength at h
    split at h
    · exact absurd h (by simp)
    · split at h
      · rename_i hcond
        refine ⟨hcond.2, ?_⟩
        have h4 := hcond.1
        cases hl : hasLowerChar p <;> cases hu : hasUpperChar p <;>
          cases hd : hasDigitChar p <;> cases hs : hasSpecialChar p <;>
          simp [strengthCount, hl, hu, hd, hs] at h4 ⊢
      · split at h <;> exact absurd h (by simp)
  · intro h
    simp [isValidPassword]
    omega

/-- C10 witness: the policy evaluated at the concrete password "abc". -/
theorem passwordStrength_policy_witness :
    getPasswordStrength "abc" = Strength.weak ∧ isValidPassword "abc" = false :=
  ⟨(passwordStrength_policy "abc").1 (by decide),
   (passwordStrength_policy "abc").2.2 (by decide)⟩

/-- C9: starting from the initial scale 1.5, any sequence of zoomIn and
zoomOut operations keeps the scale within [0.5, 3], each step moving by 0.25
except where clamped at a bound; and starting from page 1, with a document of
at least one page, any sequence of goToPrevPage and goToNextPage operations
keeps the current page within [1, numPages]. -/
theorem viewer_zoom_page_invariants (zops : List ZoomOp) (pops : List PageOp)
    (numPages : ℕ) (hn : 1 ≤ numPages) :
    (1/2 ≤ runZoom zops ∧ runZoom zops ≤ 3) ∧
    (∀ s : ℚ, 1/2 ≤ s → s ≤ 3 →
      (zoomIn s = s + 1/4 ∨ zoomIn s = 3) ∧
      (zoomOut s = s - 1/4 ∨ zoomOut s = 1/2)) ∧
    (1 ≤ runPages numPages pops ∧ runPages numPages pops ≤ numPages) := by
  refine ⟨foldl_applyZoom_bounds zops (3/2) (by norm_num) (by norm_num), ?_,
    foldl_applyPage_bounds hn pops 1 le_rfl hn⟩
  intro s _ _
  constructor
  · unfold zoomIn
    rcases le_total (s + 1/4) 3 with h | h
    · exact Or.inl (min_eq_right h)
    · exact Or.inr (min_eq_left h)
  · unfold zoomOut
    rcases le_total (1/2 : ℚ) (s - 1/4) with h | h
    · exact Or.inl (max_eq_right h)
    · exact Or.inr (max_eq_left h)

/-- C9 witness: the invariants evaluated for a concrete 2-page document and
concrete operation sequences. -/
theorem viewer_zoom_page_invariants_witness :
    (1 : ℕ) ≤ 2 ∧
    ((1/2 ≤ runZoom [ZoomOp.zin] ∧ runZoom [ZoomOp.zin] ≤ 3) ∧
     (∀ s : ℚ, 1/2 ≤ s → s ≤ 3 →
       (zoomIn s = s + 1/4 ∨ zoomIn s = 3) ∧
       (zoomOut s = s - 1/4 ∨ zoomOut s = 1/2)) ∧
     (1 ≤ runPages 2 [PageOp.next, PageOp.prev] ∧
       runPages 2 [PageOp.next, PageOp.prev] ≤ 2)) :=
  ⟨by decide, viewer_zoom_page_invariants [ZoomOp.zin] [PageOp.next, PageOp.prev] 2 (by decide)⟩

/-! ## Audit results page data shape
(src/frontend/src/pages/AuditResultsPage.tsx) -/

namespace ResultsPage

/-- Severity union type of the page's AuditIssue. -/
inductive IssueSeverity
| critical
| high
| medium
| low
deriving DecidableEq, Repr

/-- AuditIssue interface from AuditResultsPage.tsx. -/
structure AuditIssue where
  type : String
  severity : IssueSeverity
  description : String
  amount_impact : Option ℚ
  fair_price : Option ℚ
  recommendation : Option String
deriving DecidableEq, Repr

/-- CompetitorPrice interface from AuditResultsPage.tsx. -/
structure CompetitorPrice where
  name : String
  price : ℚ
  test : Option String
deriving DecidableEq, Repr

/-- MarketComparison interface from AuditResultsPage.tsx. -/
structure MarketComparison where
  hospital_type : Option String
  price_tier : Option String
  competitor_prices : Option (List CompetitorPrice)
  cghs_rate : Option ℚ
  market_average : Option ℚ
deriving DecidableEq, Repr

/-- NegotiationStrategy interface from AuditResultsPage.tsx. -/
structure NegotiationStrategy where
  success_probability : Option String
  expected_discount : Option String
  best_approach : Option String
  scripts : Option (List String)
  escalation_path : Option String
  timing : Option String
deriving DecidableEq, Repr

/-- ScanSummary interface from AuditResultsPage.tsx. -/
structure ScanSummary where
  text_length : ℕ
  lines_detected : ℕ
  ocr_confidence : String
deriving DecidableEq, Repr

/-- CategoryBreakdown interface from AuditResultsPage.tsx. -/
structure CategoryBreakdown where
  category : String
  amount : ℚ
  percent_of_total : ℚ
  status : Option String
deriving DecidableEq, Repr

/-- KeyMetrics interface from AuditResultsPage.tsx. -/
structure KeyMetrics where
  total_bill : ℚ
  tax_amount : ℚ
  payments_made : ℚ
  largest_category : Option String
  largest_category_amount : ℚ
deriving DecidableEq, Repr

/-- DocumentBreakdown interface from AuditResultsPage.tsx. -/
structure DocumentBreakdown where
  scan_summary : Option ScanSummary
  hospital_name : Option String
  hospital_type : Option String
  bill_number : Option String
  bill_date : Option String
  patient_name : Option String
  categories : Option (List CategoryBreakdown)
  key_metrics : Option KeyMetrics
  raw_text_preview : Option String
deriving DecidableEq, Repr

/-- InsiderAnalysis interface from AuditResultsPage.tsx. -/
structure InsiderAnalysis where
  hospital_profit_margin : Option String
  negotiation_window : Option String
  decision_maker : Option String
  best_time_to_call : Option String
  leverage_points : Option (List String)
  red_flags : Option (List String)
  priority_items : Option (List String)
deriving DecidableEq, Repr

/-- AuditData interface from AuditResultsPage.tsx lines 85-102.  Note that
region is a free-form string in the code, not a two-value enum. -/
structure AuditData where
  document_id : Option ℕ
  score : ℚ
  total_issues : ℕ
  potential_savings : ℚ
  currency : String
  region : String
  issues : List AuditIssue
  market_comparison : Option MarketComparison
  insider_tips : Option (List String)
  negotiation_strategy : Option NegotiationStrategy
  document_breakdown : Option DocumentBreakdown
  insider_analysis : Option InsiderAnalysis
  summary : Option String
  ocr_used : Option Bool
  ai_provider : Option String
  disclaimer : Option String
deriving DecidableEq, Repr

/-- The two region badges the page can render. -/
inductive RegionBadge
| india
| us
deriving DecidableEq, Repr

/-- Region badge rendering from AuditResultsPage.tsx lines 286-288: the page
shows the India badge iff audit.region === 'IN', and the US badge for every
other string. -/
def regionBadge (r : String) : RegionBadge :=
  if r = "IN" then RegionBadge.india else RegionBadge.us

/-- A well-typed AuditData value whose region is neither INDIA nor US (nor
even IN): nothing in the code restricts the field to two values. -/
def strayRegionData : AuditData :=
  { document_id := some 1, score := 80, total_issues := 0,
    potential_savings := 0, currency := "$", region := "EU", issues := [],
    market_comparison := none, insider_tips := none,
    negotiation_strategy := none, document_breakdown := none,
    insider_analysis := none, summary := none, ocr_used := none,
    ai_provider := none, disclaimer := none }

end ResultsPage

/-- C7 counterexample: the region field of an AuditData value is a plain
string; the concrete value strayRegionData carries region "EU", which is
neither of the claimed enum values INDIA or US. -/
theorem region_not_two_valued :
    ¬(ResultsPage.strayRegionData.region = "INDIA" ∨
      ResultsPage.strayRegionData.region = "US") := by
  decide

/-- C7 amended: region is a free-form string, not an enum; the UI reduces it
to exactly two rendering outcomes, showing the India badge precisely when the
string equals "IN" and the US badge for every other value. -/
theorem region_badge_two_outcomes (a : ResultsPage.AuditData) :
    (a.region = "IN" → ResultsPage.regionBadge a.region = ResultsPage.RegionBadge.india) ∧
    (a.region ≠ "IN" → ResultsPage.regionBadge a.region = ResultsPage.RegionBadge.us) := by
  constructor
  · intro h
    simp [ResultsPage.regionBadge, h]
  · intro h
    simp [ResultsPage.regionBadge, h]

/-- C7 witness: the amended claim evaluated at two concrete AuditData
values, one with region "IN" and one with region "EU". -/
theorem region_badge_two_outcomes_witness :
    ResultsPage.regionBadge ({ ResultsPage.strayRegionData with region := "IN" } :
        ResultsPage.AuditData).region = ResultsPage.RegionBadge.india ∧
    ResultsPage.regionBadge ResultsPage.strayRegionData.region =
      ResultsPage.RegionBadge.us :=
  ⟨(region_badge_two_outcomes { ResultsPage.strayRegionData with region := "IN" }).1
      (by decide),
   (region_badge_two_outcomes ResultsPage.strayRegionData).2 (by decide)⟩

/-! ## Bill Audit Engine, modelled from the spec

The engine (reference catalog, procedure matcher, issue detectors, audit
aggregator, facade) is code of this repository that is not present under
src/ — the snapshot only carries its frontend callers — so every definition
in this namespace is modelled from the specification text (spec.md sections
3, 4.1-4.5, 7 and 8). -/

namespace Engine

/-- Modelled from the spec: region enum of a Bill (section 3). -/
inductive Region
| INDIA
| US
deriving DecidableEq, Repr

/-- Modelled from the spec: one billed entry (section 3, LineItem). -/
structure LineItem where
  description : String
  quantity : ℚ
  unitAmount : ℚ
  totalAmount : ℚ
  procedureCode : Option String
deriving DecidableEq, Repr

/-- Modelled from the spec: market rate range of a catalog entry
(section 3, CatalogEntry). -/
structure MarketRange where
  low : ℚ
  median : ℚ
  high : ℚ
deriving DecidableEq, Repr

/-- Modelled from the spec: one reference procedure (section 3,
CatalogEntry).  The government rate is optional because sections 4.2 and 4.3
describe entries with and without a government rate. -/
structure CatalogEntry where
  normalizedName : String
  category : String
  governmentRate : Option ℚ
  packageRate : Option ℚ
  marketRateRange : Option MarketRange
deriving DecidableEq, Repr

/-- Modelled from the spec: the reference price catalog (section 4.1). -/
structure Catalog where
  entries : List CatalogEntry
deriving DecidableEq, Repr

/-- Modelled from the spec: catalog lookup by normalized name
(section 4.1). -/
def Catalog.lookup (c : Catalog) (name : String) : Option CatalogEntry :=
  c.entries.find? (fun e => decide (e.normalizedName = name))

/-- Modelled from the spec: pairing of a line item with a catalog entry or
none, with a confidence in [0,1] (section 3, MatchResult). -/
structure MatchResult where
  entry : Option CatalogEntry
  confidence : ℚ
deriving DecidableEq, Repr

/-- Modelled from the spec: issue type enum (section 3, Issue). -/
inductive IssueType
| DUPLICATE_CHARGE
| ARITHMETIC_MISMATCH
| OVERCHARGE
| TAX_MISMATCH
| MISSING_FIELD
| CODE_INVALID
deriving DecidableEq, Repr

/-- Modelled from the spec: severity enum (section 3, Issue). -/
inductive Severity
| CRITICAL
| HIGH
| MEDIUM
| LOW
deriving DecidableEq, Repr

/-- Modelled from the spec: one detected problem (section 3, Issue).  The
lineItemIndex records which line item an issue references, which section 4.4
needs for the per-line-item savings ledger. -/
structure Issue where
  type : IssueType
  severity : Severity
  description : String
  field : Option String
  expectedValue : Option ℚ
  actualValue : Option ℚ
  amountImpact : Option ℚ
  lineItemIndex : Option ℕ
deriving DecidableEq, Repr

/-- Modelled from the spec: the bill aggregate (section 3, Bill). -/
structure Bill where
  lineItems : List LineItem
  subtotal : ℚ
  taxAmount : ℚ
  totalAmount : ℚ
  region : Region
deriving DecidableEq, Repr

/-- Modelled from the spec: the output aggregate (section 3, AuditResult).
The score is an integer in 0-100. -/
structure AuditResult where
  score : ℤ
  issues : List Issue
  potentialSavings : ℚ
  region : Region
deriving DecidableEq, Repr

/-! Named configuration constants (spec section 9: thresholds are named
constants rather than magic numbers). -/

/-- Modelled from the spec: fuzzy-match confidence cutoff 0.6
(section 4.2). -/
def matchThreshold : ℚ := 3/5

/-- Modelled from the spec: tie-break epsilon of the matcher
(section 4.2). -/
def tieBreakEpsilon : ℚ := 1/100

/-- Modelled from the spec: overcharge multiplier 1.5x (section 4.3). -/
def overchargeMultiplier : ℚ := 3/2

/-- Modelled from the spec: overcharge HIGH multiplier 2x (section 4.3). -/
def overchargeHighMultiplier : ℚ := 2

/-- Modelled from the spec: overcharge CRITICAL multiplier 3x
(section 4.3). -/
def overchargeCriticalMultiplier : ℚ := 3

/-- Modelled from the spec: material-amount threshold of the duplicate
detector (section 4.3). -/
def materialAmountThreshold : ℚ := 1000

/-- Modelled from the spec: rounding tolerance of 0.01 currency unit per
item count (section 4.3). -/
def roundingTolerancePerItem : ℚ := 1/100

/-- Modelled from the spec: amount tolerance of the duplicate grouping
(section 4.3). -/
def duplicateAmountTolerance : ℚ := 1/100

/-- Modelled from the spec: upper bound of the expected tax band per region
(sections 4.3 and 8: India GST band 0-15 percent, US sales-tax absence). -/
def maxTaxRate : Region → ℚ
  | Region.INDIA => 3/20
  | Region.US => 0

/-! Procedure matcher (spec section 4.2). -/

/-- Modelled from the spec: filler words stripped by text normalization
(section 4.2). -/
def fillerWords : List String := ["test", "tests", "charge", "charges", "fee", "fees"]

/-- Modelled from the spec: lowercase and strip punctuation (section 4.2),
working on the character list of the text. -/
def normalizeChars (s : String) : List Char :=
  s.data.map (fun c => if c.isAlphanum then c.toLower else ' ')

/-- Split a character list into maximal space-free words (auxiliary of the
tokenizer; the accumulator holds the current word reversed). -/
def splitWords : List Char → List Char → List String
  | [], acc => if acc.isEmpty then [] else [String.mk acc.reverse]
  | c :: rest, acc =>
    if c = ' ' then
      if acc.isEmpty then splitWords rest []
      else String.mk acc.reverse :: splitWords rest []
    else splitWords rest (c :: acc)

/-- Modelled from the spec: tokenization — normalize, collapse whitespace
and strip filler words (section 4.2). -/
def tokensOf (s : String) : List String :=
  (splitWords (normalizeChars s) []).filter
    (fun t => decide (t ∉ fillerWords))

/-- Modelled from the spec: token-set similarity in [0,1] — shared tokens
over all tokens, tolerating reordering and partial overlap (section 4.2). -/
def similarity (a b : List String) : ℚ :=
  let u := (a ++ b).dedup
  if u.length = 0 then 0
  else ((a.dedup.filter (fun t => decide (t ∈ b))).length : ℚ) / u.length

/-- Modelled from the spec: the benchmark rate of a catalog entry — prefer
the government rate, fall back to the package rate, then to the market
median (section 4.3). -/
def benchmarkRate (e : CatalogEntry) : Option ℚ :=
  match e.governmentRate with
  | some r => some r
  | none =>
    match e.packageRate with
    | some r => some r
    | none => e.marketRateRange.map MarketRange.median

/-- Modelled from the spec: fuzzy matcher (section 4.2).  Score every entry,
keep the candidates within epsilon of the best score, prefer a candidate
with a government rate, else the first by catalog order; below the
confidence cutoff return no entry. -/
def matchItem (c : Catalog) (item : LineItem) : MatchResult :=
  let q := tokensOf item.description
  let scored := c.entries.map (fun e => (e, similarity q (tokensOf e.normalizedName)))
  let best := scored.foldl (fun acc p => max acc p.2) 0
  let cands := scored.filter (fun p => decide (best - tieBreakEpsilon ≤ p.2))
  let chosen :=
    match cands.find? (fun p => p.1.governmentRate.isSome) with
    | some p => some p
    | none => cands.head?
  match chosen with
  | some p =>
    if matchThreshold ≤ p.2 then { entry := some p.1, confidence := p.2 }
    else { entry := none, confidence := p.2 }
  | none => { entry := none, confidence := 0 }

/-! Issue detectors (spec section 4.3). -/

/-- Modelled from the spec: duplicate grouping key — same normalized
description and amounts within the small tolerance (section 4.3). -/
def isDuplicateOf (a b : LineItem) : Prop :=
  tokensOf a.description = tokensOf b.description ∧
    |a.totalAmount - b.totalAmount| ≤ duplicateAmountTolerance

instance (a b : LineItem) : Decidable (isDuplicateOf a b) := by
  unfold isDuplicateOf
  infer_instance

/-- Modelled from the spec: duplicate detector (section 4.3) — one
DUPLICATE_CHARGE issue per extra occurrence (an occurrence with an earlier
duplicate), amountImpact the duplicated item's totalAmount, severity
CRITICAL above the material threshold else HIGH. -/
def duplicateDetector (items : List LineItem) : List Issue :=
  items.enum.filterMap (fun p =>
    if (items.take p.1).any (fun prev => decide (isDuplicateOf prev p.2)) then
      some
        { type := IssueType.DUPLICATE_CHARGE,
          severity :=
            if materialAmountThreshold < p.2.totalAmount then Severity.CRITICAL
            else Severity.HIGH,
          description := "Duplicate charge: " ++ p.2.description,
          field := none, expectedValue := none, actualValue := none,
          amountImpact := some p.2.totalAmount,
          lineItemIndex := some p.1 }
    else none)

/-- Modelled from the spec: arithmetic detector (section 4.3) — recompute
the subtotal from the line items, and validate the stated total against
subtotal plus tax; each mismatch beyond the rounding tolerance is its own
HIGH issue carrying the absolute difference. -/
def arithmeticDetector (b : Bill) : List Issue :=
  let computed := (b.lineItems.map LineItem.totalAmount).sum
  let tol := roundingTolerancePerItem * b.lineItems.length
  (if tol < |b.subtotal - computed| then
    [{ type := IssueType.ARITHMETIC_MISMATCH, severity := Severity.HIGH,
       description := "Stated subtotal differs from sum of line items",
       field := some "subtotal", expectedValue := some computed,
       actualValue := some b.subtotal,
       amountImpact := some |b.subtotal - computed|,
       lineItemIndex := none }]
  else [])
  ++
  (if tol < |b.totalAmount - (b.subtotal + b.taxAmount)| then
    [{ type := IssueType.ARITHMETIC_MISMATCH, severity := Severity.HIGH,
       description := "Stated total differs from subtotal plus tax",
       field := some "totalAmount",
       expectedValue := some (b.subtotal + b.taxAmount),
       actualValue := some b.totalAmount,
       amountImpact := some |b.totalAmount - (b.subtotal + b.taxAmount)|,
       lineItemIndex := none }]
  else [])

/-- Modelled from the spec: the charged amount compared against the
benchmark — the unit amount, or the total amount for non-quantity items
(section 4.3). -/
def chargedAmount (it : LineItem) : ℚ :=
  if 1 < it.quantity then it.unitAmount else it.totalAmount

/-- Modelled from the spec: overcharge severity scaled by the observed
multiplier (section 4.3). -/
def overchargeSeverity (charged bench : ℚ) : Severity :=
  if overchargeCriticalMultiplier * bench ≤ charged then Severity.CRITICAL
  else if overchargeHighMultiplier * bench ≤ charged then Severity.HIGH
  else Severity.MEDIUM

/-- Modelled from the spec: overcharge detector (section 4.3) — only for
line items whose match confidence reaches the threshold and whose entry has
a benchmark; flags charges exceeding the multiplier with amountImpact
charged minus benchmark. -/
def overchargeDetector (items : List LineItem) (ms : List MatchResult) :
    List Issue :=
  (items.zip ms).enum.filterMap (fun p =>
    if matchThreshold ≤ p.2.2.confidence then
      match p.2.2.entry with
      | some e =>
        match benchmarkRate e with
        | some bench =>
          if overchargeMultiplier * bench < chargedAmount p.2.1 then
            some
              { type := IssueType.OVERCHARGE,
                severity := overchargeSeverity (chargedAmount p.2.1) bench,
                description := "Charge exceeds benchmark: " ++ p.2.1.description,
                field := none, expectedValue := some bench,
                actualValue := some (chargedAmount p.2.1),
                amountImpact := some (chargedAmount p.2.1 - bench),
                lineItemIndex := some p.1 }
          else none
        | none => none
      | none => none
    else none)

/-- Modelled from the spec: tax detector (section 4.3 and the section 8 tax
scenario) — when the tax exceeds the region band, emit one MEDIUM
TAX_MISMATCH carrying only the excess. -/
def taxDetector (b : Bill) : List Issue :=
  let expected := maxTaxRate b.region * b.subtotal
  if 0 < b.taxAmount - expected then
    [{ type := IssueType.TAX_MISMATCH, severity := Severity.MEDIUM,
       description := "Tax exceeds the expected band for the region",
       field := some "taxAmount", expectedValue := some expected,
       actualValue := some b.taxAmount,
       amountImpact := some (b.taxAmount - expected),
       lineItemIndex := none }]
  else []

/-- Modelled from the spec: a line item every detector can evaluate
(sections 3 and 7): quantity at least 1, non-negative amounts, non-empty
description. -/
def wellFormedItem (it : LineItem) : Prop :=
  1 ≤ it.quantity ∧ 0 ≤ it.unitAmount ∧ 0 ≤ it.totalAmount ∧
    it.description ≠ ""

instance (it : LineItem) : Decidable (wellFormedItem it) := by
  unfold wellFormedItem
  infer_instance

/-- Modelled from the spec: the MISSING_FIELD issue reported for the line
item at one index (sections 4.3 and 7). -/
def missingIssueAt (k : ℕ) : Issue :=
  { type := IssueType.MISSING_FIELD, severity := Severity.LOW,
    description := "Line item could not be fully evaluated",
    field := none, expectedValue := none, actualValue := none,
    amountImpact := none,
    lineItemIndex := some k }

/-- Modelled from the spec: failure semantics (sections 4.3 and 7) — a line
item that cannot be evaluated produces a MISSING_FIELD issue for the gap
instead of aborting the audit. -/
def missingFieldDetector (items : List LineItem) : List Issue :=
  items.enum.filterMap (fun p =>
    if wellFormedItem p.2 then none
    else some (missingIssueAt p.1))

/-! Audit aggregator (spec section 4.4). -/

/-- Modelled from the spec: fixed penalty per issue severity
(section 4.4). -/
def severityPenalty : Severity → ℤ
  | Severity.CRITICAL => 20
  | Severity.HIGH => 10
  | Severity.MEDIUM => 5
  | Severity.LOW => 2

/-- Modelled from the spec: score — start at 100, subtract the penalties,
clamp the final score to [0,100] (section 4.4). -/
def computeScore (l : List Issue) : ℤ :=
  max 0 (min 100 (100 - (l.map (fun i => severityPenalty i.severity)).sum))

/-- Modelled from the spec: stable ordering of issues by severity tier then
detection order (section 4.4). -/
def sortIssues (l : List Issue) : List Issue :=
  l.filter (fun i => decide (i.severity = Severity.CRITICAL))
    ++ l.filter (fun i => decide (i.severity = Severity.HIGH))
    ++ l.filter (fun i => decide (i.severity = Severity.MEDIUM))
    ++ l.filter (fun i => decide (i.severity = Severity.LOW))

/-- Modelled from the spec: one step of the potential-savings fold — keep a
per-line-item ledger of savings already attributed and add only the
incremental amount; issues not tied to a line item add their impact in full
(section 4.4). -/
def savingsStep (st : List (ℕ × ℚ) × ℚ) (i : Issue) : List (ℕ × ℚ) × ℚ :=
  match i.amountImpact with
  | none => st
  | some a =>
    match i.lineItemIndex with
    | some k =>
      let prev := (lookupPair st.1 k).getD 0
      (setPair st.1 k (max prev a), st.2 + max 0 (a - prev))
    | none => (st.1, st.2 + a)

/-- Modelled from the spec: potential savings — sum of amount impacts,
deduplicated through the per-line-item ledger (section 4.4). -/
def potentialSavingsOf (l : List Issue) : ℚ :=
  (l.foldl savingsStep ([], 0)).2

/-- Modelled from the spec: the audit aggregator (section 4.4). -/
def aggregate (b : Bill) (allIssues : List Issue) : AuditResult :=
  { score := computeScore allIssues,
    issues := sortIssues allIssues,
    potentialSavings := potentialSavingsOf allIssues,
    region := b.region }

/-- Modelled from the spec: the merged issue list of one audit — run the
matcher over every line item and every detector over the bill and the match
results (sections 4.3 and 4.5). -/
def auditIssues (b : Bill) (c : Catalog) : List Issue :=
  duplicateDetector b.lineItems ++ arithmeticDetector b
    ++ overchargeDetector b.lineItems (b.lineItems.map (matchItem c))
    ++ taxDetector b
    ++ missingFieldDetector b.lineItems

/-- Modelled from the spec: the audit pipeline for one bill — run the
matcher over every line item, run all detectors, aggregate (section 4.5). -/
def audit (b : Bill) (c : Catalog) : AuditResult :=
  aggregate b (auditIssues b c)

/-- Modelled from the spec: the engine facade — fail fast with a catalog
unavailable signal on an empty catalog, otherwise audit (sections 4.5
and 7). -/
def auditEngine (b : Bill) (c : Catalog) : Except String AuditResult :=
  if c.entries.isEmpty then Except.error "catalog unavailable"
  else Except.ok (audit b c)

end Engine

namespace Engine

/-! Structural lemmas about the aggregator and the detectors. -/

theorem mem_sortIssues {i : Issue} {l : List Issue} :
    i ∈ sortIssues l ↔ i ∈ l := by
  simp only [sortIssues, List.mem_append, List.mem_filter, decide_eq_true_eq]
  constructor
  · rintro (((⟨h, _⟩ | ⟨h, _⟩) | ⟨h, _⟩) | ⟨h, _⟩) <;> exact h
  · intro h
    cases hs : i.severity with
    | CRITICAL => exact Or.inl (Or.inl (Or.inl ⟨h, rfl⟩))
    | HIGH => exact Or.inl (Or.inl (Or.inr ⟨h, rfl⟩))
    | MEDIUM => exact Or.inl (Or.inr ⟨h, rfl⟩)
    | LOW => exact Or.inr ⟨h, rfl⟩

theorem mem_duplicateDetector {items : List LineItem} {iss : Issue}
    (h : iss ∈ duplicateDetector items) :
    iss.type = IssueType.DUPLICATE_CHARGE ∧
      ∃ k item, iss.lineItemIndex = some k ∧ items[k]? = some item ∧
        iss.amountImpact = some item.totalAmount := by
  unfold duplicateDetector at h
  rcases List.mem_filterMap.mp h with ⟨p, hp, hsome⟩
  have hget : items[p.1]? = some p.2 := by
    have := List.mem_enum_iff_getElem?.mp hp
    exact this
  split at hsome
  · cases hsome
    exact ⟨rfl, p.1, p.2, rfl, hget, rfl⟩
  · exact absurd hsome (by simp)

theorem mem_arithmeticDetector {b : Bill} {iss : Issue}
    (h : iss ∈ arithmeticDetector b) :
    iss.type = IssueType.ARITHMETIC_MISMATCH ∧ iss.lineItemIndex = none ∧
      ∃ a, iss.amountImpact = some a ∧ 0 ≤ a := by
  simp only [arithmeticDetector] at h
  rcases List.mem_append.mp h with h1 | h1
  · split at h1
    · simp only [List.mem_singleton] at h1
      subst h1
      exact ⟨rfl, rfl, _, rfl, abs_nonneg _⟩
    · simp at h1
  · split at h1
    · simp only [List.mem_singleton] at h1
      subst h1
      exact ⟨rfl, rfl, _, rfl, abs_nonneg _⟩
    · simp at h1

theorem mem_overchargeDetector {items : List LineItem} {ms : List MatchResult}
    {iss : Issue} (h : iss ∈ overchargeDetector items ms) :
    iss.type = IssueType.OVERCHARGE ∧
      ∃ k item m, iss.lineItemIndex = some k ∧ items[k]? = some item ∧
        ms[k]? = some m ∧ matchThreshold ≤ m.confidence ∧
        ∃ e bench, m.entry = some e ∧ benchmarkRate e = some bench ∧
          overchargeMultiplier * bench < chargedAmount item ∧
          iss.amountImpact = some (chargedAmount item - bench) := by
  unfold overchargeDetector at h
  rcases List.mem_filterMap.mp h with ⟨p, hp, hsome⟩
  have hget : (items.zip ms)[p.1]? = some p.2 := by
    have := List.mem_enum_iff_getElem?.mp hp
    exact this
  rcases List.getElem?_zip_eq_some.mp hget with ⟨hitem, hm⟩
  split at hsome
  · rename_i hconf
    split at hsome
    · rename_i e hentry
      split at hsome
      · rename_i bench hbench
        split at hsome
        · rename_i hover
          cases hsome
          exact ⟨rfl, p.1, p.2.1, p.2.2, rfl, hitem, hm, hconf, e, bench,
            hentry, hbench, hover, rfl⟩
        · exact absurd hsome (by simp)
      · exact absurd hsome (by simp)
    · exact absurd hsome (by simp)
  · exact absurd hsome (by simp)

theorem mem_taxDetector {b : Bill} {iss : Issue}
    (h : iss ∈ taxDetector b) :
    iss.type = IssueType.TAX_MISMATCH ∧ iss.lineItemIndex = none ∧
      iss.amountImpact = some (b.taxAmount - maxTaxRate b.region * b.subtotal) ∧
      0 < b.taxAmount - maxTaxRate b.region * b.subtotal := by
  simp only [taxDetector] at h
  split at h
  · rename_i hpos
    simp only [List.mem_singleton] at h
    subst h
    exact ⟨rfl, rfl, rfl, hpos⟩
  · exact absurd h (by simp)

theorem mem_missingFieldDetector {items : List LineItem} {iss : Issue}
    (h : iss ∈ missingFieldDetector items) :
    iss.type = IssueType.MISSING_FIELD ∧ iss.amountImpact = none ∧
      ∃ k item, iss.lineItemIndex = some k ∧ items[k]? = some item := by
  unfold missingFieldDetector at h
  rcases List.mem_filterMap.mp h with ⟨p, hp, hsome⟩
  have hget : items[p.1]? = some p.2 := List.mem_enum_iff_getElem?.mp hp
  split at hsome
  · exact absurd hsome (by simp)
  · cases hsome
    exact ⟨rfl, rfl, p.1, p.2, rfl, hget⟩

/-! Concrete inputs used by the witnesses. -/

/-- A small one-entry catalog. -/
def witnessCatalog : Catalog :=
  ⟨[{ normalizedName := "complete blood count", category := "lab",
      governmentRate := some 250, packageRate := none,
      marketRateRange := none }]⟩

/-- A trivially clean bill with no line items. -/
def emptyBill : Bill :=
  { lineItems := [], subtotal := 0, taxAmount := 0, totalAmount := 0,
    region := Region.INDIA }

end Engine

/-- C1: every AuditResult the audit engine returns has an integer score with
0 <= score <= 100. -/
theorem engine_score_in_range (b : Engine.Bill) (c : Engine.Catalog)
    (r : Engine.AuditResult) (h : Engine.auditEngine b c = Except.ok r) :
    0 ≤ r.score ∧ r.score ≤ 100 := by
  unfold Engine.auditEngine at h
  split at h
  · exact absurd h (by simp)
  · cases h
    refine ⟨le_max_left 0 _, max_le (by norm_num) (min_le_left _ _)⟩

/-- C1 witness: the score bounds evaluated on a concrete bill and catalog. -/
theorem engine_score_in_range_witness :
    0 ≤ (Engine.audit Engine.emptyBill Engine.witnessCatalog).score ∧
      (Engine.audit Engine.emptyBill Engine.witnessCatalog).score ≤ 100 :=
  engine_score_in_range Engine.emptyBill Engine.witnessCatalog
    (Engine.audit Engine.emptyBill Engine.witnessCatalog) rfl

/-- C2: the audit engine is deterministic — it is a pure function of the
bill and the catalog, so identical inputs yield identical AuditResults. -/
theorem engine_deterministic (b1 : Engine.Bill) (c1 : Engine.Catalog)
    (b2 : Engine.Bill) (c2 : Engine.Catalog) (hb : b1 = b2) (hc : c1 = c2) :
    Engine.auditEngine b1 c1 = Engine.auditEngine b2 c2 := by
  subst hb
  subst hc
  rfl

/-- C2 witness: determinism evaluated on a concrete bill and catalog. -/
theorem engine_deterministic_witness :
    Engine.auditEngine Engine.emptyBill Engine.witnessCatalog =
      Engine.auditEngine Engine.emptyBill Engine.witnessCatalog :=
  engine_deterministic Engine.emptyBill Engine.witnessCatalog
    Engine.emptyBill Engine.witnessCatalog rfl rfl

/-- A bill whose single line item is malformed: empty description and a
negative unit amount. -/
def Engine.malformedBill : Engine.Bill :=
  { lineItems := [{ description := "", quantity := 1, unitAmount := -5,
                    totalAmount := 10, procedureCode := none }],
    subtotal := 10, taxAmount := 0, totalAmount := 10,
    region := Engine.Region.INDIA }

/-- C5: on a non-empty catalog the audit engine never aborts — it returns a
result for every bill, and every line item it cannot evaluate (missing or
malformed fields) is reported as a MISSING_FIELD issue for that item while
the audit continues. -/
theorem engine_total_on_malformed (b : Engine.Bill) (c : Engine.Catalog)
    (hc : c.entries ≠ []) :
    ∃ r, Engine.auditEngine b c = Except.ok r ∧
      ∀ (k : ℕ) (hk : k < b.lineItems.length),
        ¬Engine.wellFormedItem (b.lineItems.get ⟨k, hk⟩) →
        ∃ iss ∈ r.issues, iss.type = Engine.IssueType.MISSING_FIELD ∧
          iss.lineItemIndex = some k := by
  refine ⟨Engine.audit b c, ?_, ?_⟩
  · unfold Engine.auditEngine
    rw [if_neg]
    simpa [List.isEmpty_iff] using hc
  · intro k hk hbad
    refine ⟨Engine.missingIssueAt k, ?_, rfl, rfl⟩
    have hmem : (⟨k, b.lineItems.get ⟨k, hk⟩⟩ : ℕ × Engine.LineItem) ∈
        b.lineItems.enum := by
      rw [List.mem_enum_iff_getElem?]
      exact List.getElem?_eq_getElem hk
    have hmiss : Engine.missingIssueAt k ∈
        Engine.missingFieldDetector b.lineItems := by
      refine List.mem_filterMap.mpr ⟨⟨k, b.lineItems.get ⟨k, hk⟩⟩, hmem, ?_⟩
      rw [if_neg hbad]
    have heq : (Engine.audit b c).issues =
        Engine.sortIssues (Engine.auditIssues b c) := rfl
    rw [heq, Engine.mem_sortIssues]
    unfold Engine.auditIssues
    exact List.mem_append.mpr (Or.inr hmiss)

/-- C5 witness: totality and the MISSING_FIELD report evaluated on a
concrete malformed bill. -/
theorem engine_total_on_malformed_witness :
    Engine.witnessCatalog.entries ≠ [] ∧
    (∃ r, Engine.auditEngine Engine.malformedBill Engine.witnessCatalog =
        Except.ok r ∧
      ∀ (k : ℕ) (hk : k < Engine.malformedBill.lineItems.length),
        ¬Engine.wellFormedItem (Engine.malformedBill.lineItems.get ⟨k, hk⟩) →
        ∃ iss ∈ r.issues, iss.type = Engine.IssueType.MISSING_FIELD ∧
          iss.lineItemIndex = some k) :=
  ⟨by decide,
   engine_total_on_malformed Engine.malformedBill Engine.witnessCatalog
     (by decide)⟩

/-- A bill whose single expensive line item does not resemble any catalog
entry. -/
def Engine.unmatchedBill : Engine.Bill :=
  { lineItems := [{ description := "helicopter ride", quantity := 1,
                    unitAmount := 99999, totalAmount := 99999,
                    procedureCode := none }],
    subtotal := 99999, taxAmount := 0, totalAmount := 99999,
    region := Engine.Region.INDIA }

/-- C6: a line item whose match confidence is below the 0.6 threshold never
receives an OVERCHARGE issue, no matter how high its charge is. -/
theorem no_overcharge_without_match (b : Engine.Bill) (c : Engine.Catalog)
    (k : ℕ) (hk : k < b.lineItems.length)
    (hconf : (Engine.matchItem c (b.lineItems.get ⟨k, hk⟩)).confidence <
      Engine.matchThreshold) :
    ∀ iss ∈ (Engine.audit b c).issues,
      ¬(iss.type = Engine.IssueType.OVERCHARGE ∧
        iss.lineItemIndex = some k) := by
  intro iss hiss hcontra
  obtain ⟨htype, hidx⟩ := hcontra
  have hmem : iss ∈ Engine.auditIssues b c := by
    have : (Engine.audit b c).issues = Engine.sortIssues (Engine.auditIssues b c) := rfl
    rw [this, Engine.mem_sortIssues] at hiss
    exact hiss
  unfold Engine.auditIssues at hmem
  rcases List.mem_append.mp hmem with hmem | hmiss
  rcases List.mem_append.mp hmem with hmem | htax
  rcases List.mem_append.mp hmem with hmem | hover
  rcases List.mem_append.mp hmem with hdup | harith
  · rcases Engine.mem_duplicateDetector hdup with ⟨ht, _⟩
    rw [htype] at ht
    simp at ht
  · rcases Engine.mem_arithmeticDetector harith with ⟨ht, _, _⟩
    rw [htype] at ht
    simp at ht
  · rcases Engine.mem_overchargeDetector hover with
      ⟨_, k2, item, m, hidx2, hitem, hms, hthr, _, _, _, _, _, _⟩
    rw [hidx] at hidx2
    cases hidx2
    have hms2 : some (Engine.matchItem c (b.lineItems.get ⟨k, hk⟩)) = some m := by
      rw [← hms, List.getElem?_map, List.getElem?_eq_getElem hk]
      rfl
    rw [← Option.some.inj hms2] at hthr
    exact absurd hthr (not_le.mpr hconf)
  · rcases Engine.mem_taxDetector htax with ⟨ht, _, _⟩
    rw [htype] at ht
    simp at ht
  · rcases Engine.mem_missingFieldDetector hmiss with ⟨ht, _, _⟩
    rw [htype] at ht
    simp at ht

/-- C6 witness: no OVERCHARGE issue for the unmatched expensive item of a
concrete bill. -/
theorem no_overcharge_without_match_witness :
    (Engine.matchItem Engine.witnessCatalog
        (Engine.unmatchedBill.lineItems.get ⟨0, by decide⟩)).confidence <
      Engine.matchThreshold ∧
    (∀ iss ∈ (Engine.audit Engine.unmatchedBill Engine.witnessCatalog).issues,
      ¬(iss.type = Engine.IssueType.OVERCHARGE ∧
        iss.lineItemIndex = some 0)) :=
  ⟨by with_unfolding_all decide,
   no_overcharge_without_match Engine.unmatchedBill Engine.witnessCatalog 0
     (by decide) (by with_unfolding_all decide)⟩

namespace Engine

/-- The no-duplicates hypothesis of the clean-bill property: no two line
items agree on normalized description and amount within the tolerance. -/
def noDuplicateItems (items : List LineItem) : Prop :=
  items.Pairwise (fun a b => ¬isDuplicateOf a b)

instance (items : List LineItem) : Decidable (noDuplicateItems items) := by
  unfold noDuplicateItems
  infer_instance

/-- The no-arithmetic-discrepancy hypothesis of the clean-bill property:
both arithmetic checks hold within the rounding tolerance. -/
def arithmeticConsistent (b : Bill) : Prop :=
  |b.subtotal - (b.lineItems.map LineItem.totalAmount).sum| ≤
      roundingTolerancePerItem * b.lineItems.length ∧
    |b.totalAmount - (b.subtotal + b.taxAmount)| ≤
      roundingTolerancePerItem * b.lineItems.length

instance (b : Bill) : Decidable (arithmeticConsistent b) := by
  unfold arithmeticConsistent
  infer_instance

/-- One line item's charge does not exceed 1.5x its matched benchmark (true
outright when the item has no matched benchmark). -/
def chargeOk (c : Catalog) (item : LineItem) : Bool :=
  match (matchItem c item).entry with
  | some e =>
    match benchmarkRate e with
    | some bench => decide (chargedAmount item ≤ overchargeMultiplier * bench)
    | none => true
  | none => true

/-- The all-charges-within-benchmark hypothesis of the clean-bill
property. -/
def chargesWithinBenchmark (b : Bill) (c : Catalog) : Prop :=
  ∀ item ∈ b.lineItems, chargeOk c item = true

instance (b : Bill) (c : Catalog) : Decidable (chargesWithinBenchmark b c) := by
  unfold chargesWithinBenchmark
  infer_instance

/-- An India bill that is free of duplicates, arithmetically consistent and
benchmark-clean, but carries 18 percent tax against the 0-15 percent
band. -/
def overTaxedBill : Bill :=
  { lineItems := [{ description := "xray", quantity := 1, unitAmount := 100,
                    totalAmount := 100, procedureCode := none }],
    subtotal := 100, taxAmount := 18, totalAmount := 118,
    region := Region.INDIA }

end Engine

/-- C3 counterexample: a bill satisfying all three hypotheses of the claim
(no duplicates, no arithmetic discrepancy, all charges within 1.5x
benchmark) for which the engine still returns a score below 100 and a
non-empty issue list, because its tax is outside the region band. -/
theorem clean_bill_counterexample :
    Engine.noDuplicateItems Engine.overTaxedBill.lineItems ∧
    Engine.arithmeticConsistent Engine.overTaxedBill ∧
    Engine.chargesWithinBenchmark Engine.overTaxedBill Engine.witnessCatalog ∧
    ¬((Engine.audit Engine.overTaxedBill Engine.witnessCatalog).score = 100 ∧
      (Engine.audit Engine.overTaxedBill Engine.witnessCatalog).issues = []) := by
  with_unfolding_all decide

namespace Engine

theorem duplicateDetector_eq_nil {items : List LineItem}
    (hdup : noDuplicateItems items) : duplicateDetector items = [] := by
  rw [duplicateDetector, List.filterMap_eq_nil_iff]
  intro p hp
  rw [if_neg]
  simp only [List.any_eq_true, decide_eq_true_eq, not_exists, not_and]
  intro prev hprev
  have hp2 : items[p.1]? = some p.2 := List.mem_enum_iff_getElem?.mp hp
  rcases List.getElem?_eq_some_iff.mp hp2 with ⟨hlt, hget⟩
  rcases List.mem_iff_getElem.mp hprev with ⟨j, hj, hjget⟩
  have hjp : j < p.1 := by
    have := hj
    simp only [List.length_take] at this
    omega
  have hjlen : j < items.length := by
    have := hj
    simp only [List.length_take] at this
    omega
  have hjget2 : items[j] = prev := by
    have h1 : (items.take p.1)[j]? = items[j]? := List.getElem?_take_of_lt hjp
    rw [List.getElem?_eq_getElem hj, List.getElem?_eq_getElem hjlen] at h1
    rw [← Option.some.inj h1]
    exact hjget
  have hpair := List.pairwise_iff_getElem.mp hdup j p.1 hjlen hlt hjp
  rw [hjget2, hget] at hpair
  exact hpair

theorem arithmeticDetector_eq_nil {b : Bill}
    (harith : arithmeticConsistent b) : arithmeticDetector b = [] := by
  simp only [arithmeticDetector]
  rw [if_neg (not_lt.mpr harith.1), if_neg (not_lt.mpr harith.2)]
  rfl

theorem overchargeDetector_eq_nil {b : Bill} {c : Catalog}
    (hover : chargesWithinBenchmark b c) :
    overchargeDetector b.lineItems (b.lineItems.map (matchItem c)) = [] := by
  rw [overchargeDetector, List.filterMap_eq_nil_iff]
  intro p hp
  have hzip : (b.lineItems.zip (b.lineItems.map (matchItem c)))[p.1]? = some p.2 :=
    List.mem_enum_iff_getElem?.mp hp
  rcases List.getElem?_zip_eq_some.mp hzip with ⟨hitem, hm⟩
  have hm2 : p.2.2 = matchItem c p.2.1 := by
    rw [List.getElem?_map, hitem] at hm
    exact (Option.some.inj hm).symm
  have hmem : p.2.1 ∈ b.lineItems := List.getElem?_mem hitem
  have hok := hover p.2.1 hmem
  split
  · rename_i hconf
    split
    · rename_i e hentry
      split
      · rename_i bench hbench
        rw [if_neg]
        rw [chargeOk, ← hm2, hentry] at hok
        simp only [hbench] at hok
        exact not_lt.mpr (of_decide_eq_true hok)
      · rfl
    · rfl
  · rfl

theorem taxDetector_eq_nil {b : Bill}
    (htax : b.taxAmount ≤ maxTaxRate b.region * b.subtotal) :
    taxDetector b = [] := by
  simp only [taxDetector]
  rw [if_neg (not_lt.mpr (sub_nonpos.mpr htax))]

theorem missingFieldDetector_eq_nil {items : List LineItem}
    (hwf : ∀ item ∈ items, wellFormedItem item) :
    missingFieldDetector items = [] := by
  rw [missingFieldDetector, List.filterMap_eq_nil_iff]
  intro p hp
  rw [if_pos (hwf p.2 (List.getElem?_mem (List.mem_enum_iff_getElem?.mp hp)))]

end Engine

/-- C3 amended: for bills with no duplicate line items, no arithmetic
discrepancy, all charges within 1.5x of their matched benchmark, tax within
the region band, and all line items well formed, the engine returns score
100 and an empty issue list.  (The tax and well-formedness hypotheses are
forced: the claim as stated fails on an over-taxed bill, see the
counterexample.) -/
theorem clean_bill_scores_100 (b : Engine.Bill) (c : Engine.Catalog)
    (hdup : Engine.noDuplicateItems b.lineItems)
    (harith : Engine.arithmeticConsistent b)
    (hover : Engine.chargesWithinBenchmark b c)
    (htax : b.taxAmount ≤ Engine.maxTaxRate b.region * b.subtotal)
    (hwf : ∀ item ∈ b.lineItems, Engine.wellFormedItem item) :
    (Engine.audit b c).score = 100 ∧ (Engine.audit b c).issues = [] := by
  have hnil : Engine.auditIssues b c = [] := by
    unfold Engine.auditIssues
    rw [Engine.duplicateDetector_eq_nil hdup,
      Engine.arithmeticDetector_eq_nil harith,
      Engine.overchargeDetector_eq_nil hover,
      Engine.taxDetector_eq_nil htax,
      Engine.missingFieldDetector_eq_nil hwf]
    rfl
  have h1 : Engine.audit b c = Engine.aggregate b [] := by
    rw [Engine.audit, hnil]
  rw [h1]
  constructor
  · show Engine.computeScore [] = 100
    rw [Engine.computeScore]
    norm_num
  · show Engine.sortIssues [] = []
    rfl

/-- A clean India bill: consistent arithmetic, tax inside the band, a
well-formed unmatched line item. -/
def Engine.cleanBill : Engine.Bill :=
  { lineItems := [{ description := "xray", quantity := 1, unitAmount := 100,
                    totalAmount := 100, procedureCode := none }],
    subtotal := 100, taxAmount := 10, totalAmount := 110,
    region := Engine.Region.INDIA }

/-- C3 witness: the amended clean-bill property evaluated on a concrete
clean bill against the concrete catalog. -/
theorem clean_bill_scores_100_witness :
    Engine.noDuplicateItems Engine.cleanBill.lineItems ∧
    Engine.arithmeticConsistent Engine.cleanBill ∧
    Engine.chargesWithinBenchmark Engine.cleanBill Engine.witnessCatalog ∧
    Engine.cleanBill.taxAmount ≤
      Engine.maxTaxRate Engine.cleanBill.region * Engine.cleanBill.subtotal ∧
    ((Engine.audit Engine.cleanBill Engine.witnessCatalog).score = 100 ∧
      (Engine.audit Engine.cleanBill Engine.witnessCatalog).issues = []) :=
  ⟨by with_unfolding_all decide, by with_unfolding_all decide,
   by with_unfolding_all decide, by with_unfolding_all decide,
   clean_bill_scores_100 Engine.cleanBill Engine.witnessCatalog
     (by with_unfolding_all decide) (by with_unfolding_all decide)
     (by with_unfolding_all decide) (by with_unfolding_all decide)
     (by with_unfolding_all decide)⟩

namespace Engine

/-! Lemmas about the potential-savings ledger fold. -/

/-- The amount already attributed to a line item in the savings ledger. -/
def ledgerValAt (m : List (ℕ × ℚ)) (k : ℕ) : ℚ := (lookupPair m k).getD 0

/-- The contribution of one issue to the savings outside the ledger: its
impact when it references no line item, zero otherwise. -/
def nonItemImpact (i : Issue) : ℚ :=
  match i.lineItemIndex, i.amountImpact with
  | none, some a => a
  | _, _ => 0

/-- Total savings contribution of the issues that reference no line item. -/
def nonItemImpactSum (l : List Issue) : ℚ := (l.map nonItemImpact).sum

theorem ledgerValAt_setPair (m : List (ℕ × ℚ)) (k k2 : ℕ) (v : ℚ) :
    ledgerValAt (setPair m k v) k2 = if k = k2 then v else ledgerValAt m k2 := by
  unfold ledgerValAt
  rw [lookupPair_setPair]
  by_cases h : k = k2 <;> simp [h]

theorem ledgerValAt_bounds {f : ℕ → ℚ} {m : List (ℕ × ℚ)}
    (hf : ∀ k, 0 ≤ f k) (hm : ∀ x ∈ m, 0 ≤ x.2 ∧ x.2 ≤ f x.1) (k : ℕ) :
    0 ≤ ledgerValAt m k ∧ ledgerValAt m k ≤ f k := by
  unfold ledgerValAt
  cases hl : lookupPair m k with
  | none =>
    simp only [Option.getD_none]
    exact ⟨le_rfl, hf k⟩
  | some v =>
    have := hm (k, v) (lookupPair_mem hl)
    simpa using this

theorem savings_foldl_nonneg :
    ∀ (l : List Issue) (m : List (ℕ × ℚ)) (acc : ℚ),
      (∀ i ∈ l, ∀ a, i.lineItemIndex = none → i.amountImpact = some a → 0 ≤ a) →
      0 ≤ acc → 0 ≤ (l.foldl savingsStep (m, acc)).2 := by
  intro l
  induction l with
  | nil => intro m acc _ h0; exact h0
  | cons i rest ih =>
    intro m acc hnn h0
    simp only [List.foldl_cons]
    have hrest : ∀ j ∈ rest, ∀ a, j.lineItemIndex = none →
        j.amountImpact = some a → 0 ≤ a :=
      fun j hj => hnn j (List.mem_cons_of_mem _ hj)
    rcases himp : i.amountImpact with _ | a
    · have hstep : savingsStep (m, acc) i = (m, acc) := by
        simp [savingsStep, himp]
      rw [hstep]
      exact ih m acc hrest h0
    · rcases hidx : i.lineItemIndex with _ | k
      · have hstep : savingsStep (m, acc) i = (m, acc + a) := by
          simp [savingsStep, himp, hidx]
        rw [hstep]
        exact ih m _ hrest
          (add_nonneg h0 (hnn i (List.mem_cons_self _ _) a hidx himp))
      · have hstep : savingsStep (m, acc) i =
            (setPair m k (max (ledgerValAt m k) a),
              acc + max 0 (a - ledgerValAt m k)) := by
          simp [savingsStep, himp, hidx, ledgerValAt]
        rw [hstep]
        exact ih _ _ hrest (add_nonneg h0 (le_max_left 0 _))

theorem savings_foldl_le (f : ℕ → ℚ) (N : ℕ) (hf : ∀ k, 0 ≤ f k) :
    ∀ (l : List Issue) (m : List (ℕ × ℚ)) (acc : ℚ),
      (∀ i ∈ l, ∀ k, i.lineItemIndex = some k → k < N) →
      (∀ i ∈ l, ∀ k a, i.lineItemIndex = some k → i.amountImpact = some a →
        a ≤ f k) →
      (∀ x ∈ m, 0 ≤ x.2 ∧ x.2 ≤ f x.1) →
      (l.foldl savingsStep (m, acc)).2 ≤
        acc + (∑ k ∈ Finset.range N, (f k - ledgerValAt m k))
          + nonItemImpactSum l := by
  intro l
  induction l with
  | nil =>
    intro m acc _ _ hm
    have hsum : 0 ≤ ∑ k ∈ Finset.range N, (f k - ledgerValAt m k) :=
      Finset.sum_nonneg fun k _ =>
        sub_nonneg.mpr (ledgerValAt_bounds hf hm k).2
    simp only [List.foldl_nil, nonItemImpactSum, List.map_nil, List.sum_nil]
    linarith
  | cons i rest ih =>
    intro m acc hidxs hcaps hm
    have hidxr : ∀ j ∈ rest, ∀ k, j.lineItemIndex = some k → k < N :=
      fun j hj => hidxs j (List.mem_cons_of_mem _ hj)
    have hcapr : ∀ j ∈ rest, ∀ k a, j.lineItemIndex = some k →
        j.amountImpact = some a → a ≤ f k :=
      fun j hj => hcaps j (List.mem_cons_of_mem _ hj)
    simp only [List.foldl_cons]
    rcases himp : i.amountImpact with _ | a
    · have hstep : savingsStep (m, acc) i = (m, acc) := by
        simp [savingsStep, himp]
      have hni : nonItemImpact i = 0 := by
        rcases hidx : i.lineItemIndex with _ | k <;>
          simp [nonItemImpact, himp, hidx]
      rw [hstep]
      have := ih m acc hidxr hcapr hm
      simp only [nonItemImpactSum, List.map_cons, List.sum_cons, hni] at this ⊢
      linarith
    · rcases hidx : i.lineItemIndex with _ | k
      · have hstep : savingsStep (m, acc) i = (m, acc + a) := by
          simp [savingsStep, himp, hidx]
        have hni : nonItemImpact i = a := by
          simp [nonItemImpact, himp, hidx]
        rw [hstep]
        have := ih m (acc + a) hidxr hcapr hm
        simp only [nonItemImpactSum, List.map_cons, List.sum_cons, hni] at this ⊢
        linarith
      · have hkN : k < N := hidxs i (List.mem_cons_self _ _) k hidx
        have hak : a ≤ f k := hcaps i (List.mem_cons_self _ _) k a hidx himp
        set prev := ledgerValAt m k with hprev
        have hprevb := ledgerValAt_bounds hf hm k
        have hstep : savingsStep (m, acc) i =
            (setPair m k (max prev a), acc + max 0 (a - prev)) := by
          simp [savingsStep, himp, hidx, ledgerValAt, hprev]
        have hni : nonItemImpact i = 0 := by
          simp [nonItemImpact, himp, hidx]
        rw [hstep]
        have hm2 : ∀ x ∈ setPair m k (max prev a), 0 ≤ x.2 ∧ x.2 ≤ f x.1 := by
          intro x hx
          rcases mem_setPair hx with rfl | hxm
          · exact ⟨le_trans hprevb.1 (le_max_left _ _), max_le hprevb.2 hak⟩
          · exact hm x hxm
        have hih := ih (setPair m k (max prev a)) (acc + max 0 (a - prev))
          hidxr hcapr hm2
        have hkr : k ∈ Finset.range N := Finset.mem_range.mpr hkN
        have hsum2 :
            (∑ k2 ∈ Finset.range N, (f k2 - ledgerValAt (setPair m k (max prev a)) k2)) =
              (∑ k2 ∈ (Finset.range N).erase k, (f k2 - ledgerValAt m k2))
                + (f k - max prev a) := by
          rw [← Finset.sum_erase_add _ _ hkr]
          congr 1
          refine Finset.sum_congr rfl fun x hx => ?_
          have hxk : ¬k = x := fun hc => (Finset.ne_of_mem_erase hx) hc.symm
          rw [ledgerValAt_setPair, if_neg hxk]
          rw [ledgerValAt_setPair, if_pos rfl]
        have hsum1 :
            (∑ k2 ∈ Finset.range N, (f k2 - ledgerValAt m k2)) =
              (∑ k2 ∈ (Finset.range N).erase k, (f k2 - ledgerValAt m k2))
                + (f k - prev) := by
          rw [← Finset.sum_erase_add _ _ hkr]
        have hmax : max 0 (a - prev) = max prev a - prev := by
          rcases le_total a prev with h | h
          · rw [max_eq_left (sub_nonpos.mpr h), max_eq_left h, sub_self]
          · rw [max_eq_right (sub_nonneg.mpr h), max_eq_right h]
        have := hih
        simp only [nonItemImpactSum, List.map_cons, List.sum_cons, hni] at this ⊢
        rw [hsum2] at this
        rw [hsum1]
        linarith

end Engine

namespace Engine

/-- The matched entry of a line item always comes from the catalog. -/
theorem matchItem_entry_mem {c : Catalog} {item : LineItem} {e : CatalogEntry}
    (h : (matchItem c item).entry = some e) : e ∈ c.entries := by
  simp only [matchItem] at h
  split at h
  · rename_i p heq
    split at h
    · have hpe : p.1 = e := by simpa using h
      have hpmem : p ∈ (c.entries.map
          (fun e2 => (e2, similarity (tokensOf item.description)
            (tokensOf e2.normalizedName)))).filter
          (fun p2 => decide ((c.entries.map
            (fun e2 => (e2, similarity (tokensOf item.description)
              (tokensOf e2.normalizedName)))).foldl
              (fun acc p3 => max acc p3.2) 0 - tieBreakEpsilon ≤ p2.2)) := by
        split at heq
        · rename_i p0 hfind
          have := List.mem_of_find?_eq_some hfind
          have hpp : p0 = p := by simpa using heq
          rwa [hpp] at this
        · exact List.mem_of_mem_head? (Option.mem_def.mpr heq)
      have hscored := (List.mem_filter.mp hpmem).1
      rcases List.mem_map.mp hscored with ⟨e0, he0, heq3⟩
      have : e0 = p.1 := congrArg Prod.fst heq3
      rw [← hpe, ← this]
      exact he0
    · exact absurd h (by simp)
  · exact absurd h (by simp)

/-- The upper bound used for savings attributed to the line item at one
index: that item's stated total amount. -/
def itemCap (b : Bill) (k : ℕ) : ℚ :=
  ((b.lineItems[k]?).map LineItem.totalAmount).getD 0

theorem auditIssues_nonItem_nonneg (b : Bill) (c : Catalog) :
    ∀ i ∈ auditIssues b c, ∀ a, i.lineItemIndex = none →
      i.amountImpact = some a → 0 ≤ a := by
  intro i hi a hidx himp
  unfold auditIssues at hi
  rcases List.mem_append.mp hi with hi | hmiss
  rcases List.mem_append.mp hi with hi | htax
  rcases List.mem_append.mp hi with hi | hover
  rcases List.mem_append.mp hi with hdup | harith
  · rcases mem_duplicateDetector hdup with ⟨_, k, item, hidx2, _, _⟩
    rw [hidx] at hidx2
    simp at hidx2
  · rcases mem_arithmeticDetector harith with ⟨_, _, a0, himp0, h0⟩
    rw [himp] at himp0
    cases Option.some.inj himp0
    exact h0
  · rcases mem_overchargeDetector hover with ⟨_, k, _, _, hidx2, _⟩
    rw [hidx] at hidx2
    simp at hidx2
  · rcases mem_taxDetector htax with ⟨_, _, himp0, h0⟩
    rw [himp] at himp0
    cases Option.some.inj himp0
    exact le_of_lt h0
  · rcases mem_missingFieldDetector hmiss with ⟨_, himp0, _⟩
    rw [himp] at himp0
    simp at himp0

theorem auditIssues_idx_lt (b : Bill) (c : Catalog) :
    ∀ i ∈ auditIssues b c, ∀ k, i.lineItemIndex = some k →
      k < b.lineItems.length := by
  intro i hi k hidx
  unfold auditIssues at hi
  rcases List.mem_append.mp hi with hi | hmiss
  rcases List.mem_append.mp hi with hi | htax
  rcases List.mem_append.mp hi with hi | hover
  rcases List.mem_append.mp hi with hdup | harith
  · rcases mem_duplicateDetector hdup with ⟨_, k2, item, hidx2, hget, _⟩
    rw [hidx] at hidx2
    cases Option.some.inj hidx2
    exact (List.getElem?_eq_some_iff.mp hget).1
  · rcases mem_arithmeticDetector harith with ⟨_, hidx2, _⟩
    rw [hidx] at hidx2
    simp at hidx2
  · rcases mem_overchargeDetector hover with
      ⟨_, k2, item, m, hidx2, hget, _⟩
    rw [hidx] at hidx2
    cases Option.some.inj hidx2
    exact (List.getElem?_eq_some_iff.mp hget).1
  · rcases mem_taxDetector htax with ⟨_, hidx2, _⟩
    rw [hidx] at hidx2
    simp at hidx2
  · rcases mem_missingFieldDetector hmiss with ⟨_, _, k2, item, hidx2, hget⟩
    rw [hidx] at hidx2
    cases Option.some.inj hidx2
    exact (List.getElem?_eq_some_iff.mp hget).1

theorem auditIssues_cap (b : Bill) (c : Catalog)
    (hitems : ∀ item ∈ b.lineItems, 1 ≤ item.quantity ∧ 0 ≤ item.unitAmount ∧
      item.totalAmount = item.quantity * item.unitAmount)
    (hcat : ∀ e ∈ c.entries, ∀ r, benchmarkRate e = some r → 0 ≤ r) :
    ∀ i ∈ auditIssues b c, ∀ k a, i.lineItemIndex = some k →
      i.amountImpact = some a → a ≤ itemCap b k := by
  intro i hi k a hidx himp
  unfold auditIssues at hi
  rcases List.mem_append.mp hi with hi | hmiss
  rcases List.mem_append.mp hi with hi | htax
  rcases List.mem_append.mp hi with hi | hover
  rcases List.mem_append.mp hi with hdup | harith
  · rcases mem_duplicateDetector hdup with ⟨_, k2, item, hidx2, hget, himp2⟩
    rw [hidx] at hidx2
    cases Option.some.inj hidx2
    rw [himp] at himp2
    cases Option.some.inj himp2
    rw [itemCap, hget]
    simp
  · rcases mem_arithmeticDetector harith with ⟨_, hidx2, _⟩
    rw [hidx] at hidx2
    simp at hidx2
  · rcases mem_overchargeDetector hover with
      ⟨_, k2, item, m, hidx2, hget, hm, _, e, bench, hentry, hbench, _, himp2⟩
    rw [hidx] at hidx2
    cases Option.some.inj hidx2
    rw [himp] at himp2
    cases Option.some.inj himp2
    have hmm : m = matchItem c item := by
      rw [List.getElem?_map, hget] at hm
      exact (Option.some.inj hm).symm
    have hbe : 0 ≤ bench := by
      have hemem : e ∈ c.entries := matchItem_entry_mem (hmm ▸ hentry)
      exact hcat e hemem bench hbench
    have hmem : item ∈ b.lineItems := List.getElem?_mem hget
    rcases hitems item hmem with ⟨hq, hu, htot⟩
    have hch : chargedAmount item ≤ item.totalAmount := by
      rw [chargedAmount]
      split
      · rename_i h1
        rw [htot]
        calc item.unitAmount = 1 * item.unitAmount := (one_mul _).symm
        _ ≤ item.quantity * item.unitAmount :=
          mul_le_mul_of_nonneg_right hq hu
      · exact le_rfl
    have hcap2 : itemCap b k = item.totalAmount := by
      rw [itemCap, hget]
      simp
    rw [hcap2]
    calc chargedAmount item - bench ≤ chargedAmount item := sub_le_self _ hbe
    _ ≤ item.totalAmount := hch
  · rcases mem_taxDetector htax with ⟨_, hidx2, _⟩
    rw [hidx] at hidx2
    simp at hidx2
  · rcases mem_missingFieldDetector hmiss with ⟨_, himp2, _⟩
    rw [himp] at himp2
    simp at himp2

end Engine

namespace Engine

theorem maxTaxRate_nonneg (r : Region) : 0 ≤ maxTaxRate r := by
  cases r <;> norm_num [maxTaxRate]

theorem auditIssues_nonItemSum_le (b : Bill) (c : Catalog)
    (hsubEq : b.subtotal = (b.lineItems.map LineItem.totalAmount).sum)
    (htotEq : b.totalAmount = b.subtotal + b.taxAmount)
    (hsubnn : 0 ≤ b.subtotal) (htaxnn : 0 ≤ b.taxAmount) :
    nonItemImpactSum (auditIssues b c) ≤ b.taxAmount := by
  have htol : (0 : ℚ) ≤ roundingTolerancePerItem * b.lineItems.length :=
    mul_nonneg (by norm_num [roundingTolerancePerItem]) (Nat.cast_nonneg _)
  have harith : arithmeticConsistent b := by
    constructor
    · rw [hsubEq, sub_self, abs_zero]
      exact htol
    · rw [htotEq, sub_self, abs_zero]
      exact htol
  unfold auditIssues nonItemImpactSum
  rw [arithmeticDetector_eq_nil harith, List.append_nil]
  simp only [List.map_append, List.sum_append]
  have hdup0 : (List.map nonItemImpact (duplicateDetector b.lineItems)).sum = 0 := by
    apply List.sum_eq_zero
    intro x hx
    rcases List.mem_map.mp hx with ⟨i, hi, rfl⟩
    rcases mem_duplicateDetector hi with ⟨_, k, item, hidx, _⟩
    simp [nonItemImpact, hidx]
  have hover0 : (List.map nonItemImpact
      (overchargeDetector b.lineItems (b.lineItems.map (matchItem c)))).sum = 0 := by
    apply List.sum_eq_zero
    intro x hx
    rcases List.mem_map.mp hx with ⟨i, hi, rfl⟩
    rcases mem_overchargeDetector hi with ⟨_, k, item, m, hidx, _⟩
    simp [nonItemImpact, hidx]
  have hmiss0 : (List.map nonItemImpact (missingFieldDetector b.lineItems)).sum = 0 := by
    apply List.sum_eq_zero
    intro x hx
    rcases List.mem_map.mp hx with ⟨i, hi, rfl⟩
    rcases mem_missingFieldDetector hi with ⟨_, himp, _⟩
    simp [nonItemImpact, himp]
  have htaxle : (List.map nonItemImpact (taxDetector b)).sum ≤ b.taxAmount := by
    simp only [taxDetector]
    split
    · rename_i hpos
      simp only [List.map_cons, List.map_nil, List.sum_cons, List.sum_nil,
        add_zero]
      have : nonItemImpact
          { type := IssueType.TAX_MISMATCH, severity := Severity.MEDIUM,
            description := "Tax exceeds the expected band for the region",
            field := some "taxAmount",
            expectedValue := some (maxTaxRate b.region * b.subtotal),
            actualValue := some b.taxAmount,
            amountImpact := some (b.taxAmount - maxTaxRate b.region * b.subtotal),
            lineItemIndex := none } =
          b.taxAmount - maxTaxRate b.region * b.subtotal := rfl
      rw [this]
      exact sub_le_self _ (mul_nonneg (maxTaxRate_nonneg _) hsubnn)
    · simpa using htaxnn
  linarith

theorem sum_range_getD (l : List ℚ) :
    (∑ k ∈ Finset.range l.length, (l[k]?).getD 0) = l.sum := by
  induction l with
  | nil => simp
  | cons x t ih =>
    rw [List.length_cons, Finset.sum_range_succ']
    simp only [List.getElem?_cons_succ, List.getElem?_cons_zero, Option.getD_some]
    rw [ih, List.sum_cons, add_comm]

/-- The per-item caps sum to the sum of line-item totals. -/
theorem sum_itemCap (b : Bill) :
    (∑ k ∈ Finset.range b.lineItems.length, itemCap b k) =
      (b.lineItems.map LineItem.totalAmount).sum := by
  have hstep : (∑ k ∈ Finset.range b.lineItems.length, itemCap b k) =
      ∑ k ∈ Finset.range (b.lineItems.map LineItem.totalAmount).length,
        ((b.lineItems.map LineItem.totalAmount)[k]?).getD 0 := by
    rw [List.length_map]
    refine Finset.sum_congr rfl fun k _ => ?_
    rw [itemCap, List.getElem?_map]
  rw [hstep, sum_range_getD]

end Engine

/-- An inconsistent bill: one 500-unit line item but stated subtotal and
total of 0. -/
def Engine.inconsistentBill : Engine.Bill :=
  { lineItems := [{ description := "cbc", quantity := 1, unitAmount := 500,
                    totalAmount := 500, procedureCode := none }],
    subtotal := 0, taxAmount := 0, totalAmount := 0,
    region := Engine.Region.US }

/-- C4 counterexample: on a bill whose stated totals disagree with its line
items, the arithmetic issue's impact drives potentialSavings above
bill.totalAmount, so the claimed conjunction fails. -/
theorem savings_exceeds_total_counterexample :
    ¬(0 ≤ (Engine.audit Engine.inconsistentBill Engine.witnessCatalog).potentialSavings ∧
      (Engine.audit Engine.inconsistentBill Engine.witnessCatalog).potentialSavings ≤
        Engine.inconsistentBill.totalAmount) := by
  with_unfolding_all decide

/-- C4 amended: potentialSavings is always non-negative; and it is bounded
by bill.totalAmount whenever the bill's stated subtotal equals the sum of
its line items, its stated total equals subtotal plus tax, subtotal and tax
are non-negative, each line item is internally consistent (quantity at least
1, non-negative unit amount, total = quantity x unit), and all catalog
benchmark rates are non-negative.  (The consistency hypotheses are forced:
the bound fails on an inconsistent bill, see the counterexample.) -/
theorem savings_bounds (b : Engine.Bill) (c : Engine.Catalog) :
    0 ≤ (Engine.audit b c).potentialSavings ∧
    (b.subtotal = (b.lineItems.map Engine.LineItem.totalAmount).sum →
      b.totalAmount = b.subtotal + b.taxAmount →
      0 ≤ b.subtotal → 0 ≤ b.taxAmount →
      (∀ item ∈ b.lineItems, 1 ≤ item.quantity ∧ 0 ≤ item.unitAmount ∧
        item.totalAmount = item.quantity * item.unitAmount) →
      (∀ e ∈ c.entries, ∀ r, Engine.benchmarkRate e = some r → 0 ≤ r) →
      (Engine.audit b c).potentialSavings ≤ b.totalAmount) := by
  constructor
  · exact Engine.savings_foldl_nonneg (Engine.auditIssues b c) [] 0
      (Engine.auditIssues_nonItem_nonneg b c) le_rfl
  · intro hsubEq htotEq hsubnn htaxnn hitems hcat
    have hf : ∀ k, 0 ≤ Engine.itemCap b k := by
      intro k
      rw [Engine.itemCap]
      cases hl : b.lineItems[k]? with
      | none => simp
      | some item =>
        simp only [Option.map_some', Option.getD_some]
        rcases hitems item (List.getElem?_mem hl) with ⟨hq, hu, htot⟩
        rw [htot]
        exact mul_nonneg (le_trans zero_le_one hq) hu
    have hmain := Engine.savings_foldl_le (Engine.itemCap b)
      b.lineItems.length hf (Engine.auditIssues b c) [] 0
      (Engine.auditIssues_idx_lt b c)
      (Engine.auditIssues_cap b c hitems hcat)
      (by intro x hx; simp at hx)
    have hS : (∑ k ∈ Finset.range b.lineItems.length,
        (Engine.itemCap b k - Engine.ledgerValAt [] k)) =
        (b.lineItems.map Engine.LineItem.totalAmount).sum := by
      rw [← Engine.sum_itemCap b]
      refine Finset.sum_congr rfl fun k _ => ?_
      show Engine.itemCap b k - (Engine.ledgerValAt [] k) = Engine.itemCap b k
      rw [show Engine.ledgerValAt [] k = 0 from rfl, sub_zero]
    have hni := Engine.auditIssues_nonItemSum_le b c hsubEq htotEq hsubnn htaxnn
    have hps : (Engine.audit b c).potentialSavings =
        (List.foldl Engine.savingsStep ([], 0) (Engine.auditIssues b c)).2 := rfl
    rw [hps]
    rw [hS] at hmain
    rw [htotEq, hsubEq]
    linarith

/-- C4 witness: the savings bounds evaluated on a concrete consistent bill
against the concrete catalog. -/
theorem savings_bounds_witness :
    0 ≤ (Engine.audit Engine.cleanBill Engine.witnessCatalog).potentialSavings ∧
    (Engine.audit Engine.cleanBill Engine.witnessCatalog).potentialSavings ≤
      Engine.cleanBill.totalAmount :=
  ⟨(savings_bounds Engine.cleanBill Engine.witnessCatalog).1,
   (savings_bounds Engine.cleanBill Engine.witnessCatalog).2
     (by with_unfolding_all decide) (by with_unfolding_all decide)
     (by with_unfolding_all decide) (by with_unfolding_all decide)
     (by with_unfolding_all decide)
     (by
       intro e he r hr
       simp only [Engine.witnessCatalog, List.mem_singleton] at he
       subst he
       simp only [Engine.benchmarkRate] at hr
       have h250 : (250 : ℚ) = r := by simpa using hr
       rw [← h250]
       norm_num)⟩
